import Mathlib

/-!
Verification of the nickname-api match-ranking engine
(`src/nickname_converter.py`, with its caller `src/main.py`).

The Python module operates on a JSON dictionary mapping formal names to a
stored value that is either the legacy bare list of nickname strings, or a
structured record: a Python dict with keys "nicknames", "century", "region"
and, optionally, "subregion" (in that insertion order).

External dependencies are kept abstract: `thefuzz`'s `fuzz.ratio` is an
arbitrary function `ratio : String → String → Nat`, and the `fuzzy`
library's `Soundex(4)` encoder is an arbitrary `sdx : String → Except Unit
String` (`Except.error` models the encoder raising an exception, which
`get_soundex_code` converts to an absent value).  Theorems about the engine
quantify over these, so they hold for the real library functions as well.
-/

/-- A stored value of the name dictionary: legacy bare list of nicknames, or
the structured record shape. `sub = none` models a record with no
"subregion" key. -/
inductive NickRecord where
  | legacy (ns : List String)
  | structured (ns : List String) (cs : List Int) (rs : List String)
      (sub : Option (List String))
deriving DecidableEq

/-- The name dictionary, as an insertion-ordered association list (the shape
a Python dict presents to iteration). -/
abbrev NameDict := List (String × NickRecord)

/-- Python iteration over a stored value: a list yields its elements, a dict
yields its keys in insertion order.  This is what `for n in nicknames` sees
in `search_by_nickname` and `search_by_nickname_strength`, which iterate the
raw stored value rather than the normalized entry. -/
def recIter : NickRecord → List String
  | .legacy ns => ns
  | .structured _ _ _ sub =>
      ["nicknames", "century", "region"] ++
        (match sub with | some _ => ["subregion"] | none => [])

/-- Python `d.get(k)` / `d[k]` read on an insertion-ordered dict. -/
def dget {α : Type} : List (String × α) → String → Option α
  | [], _ => none
  | p :: rest, k => if p.1 = k then some p.2 else dget rest k

/-- Python `d[k] = v` on an insertion-ordered dict: overwrite in place if the
key is present, append at the end otherwise. -/
def dset {α : Type} : List (String × α) → String → α → List (String × α)
  | [], k, v => [(k, v)]
  | p :: rest, k, v => if p.1 = k then (k, v) :: rest else p :: dset rest k v

/-- The normalized record returned by `get_entry`: the structured dict shape.
`subregion = none` models the absence of the "subregion" key (a legacy or
absent entry gets no such key from `get_entry`). -/
structure NameEntry where
  nicknames : List String
  century : List Int
  region : List String
  subregion : Option (List String)
deriving DecidableEq

/-- Normalization of a present stored value, as in `get_entry`'s two
type-inspection branches: a structured record is returned as-is, a legacy
list becomes `{"nicknames": entry, "century": [], "region": []}`. -/
def entryOfRecord : NickRecord → NameEntry
  | .structured ns cs rs sub => ⟨ns, cs, rs, sub⟩
  | .legacy ns => ⟨ns, [], [], none⟩

/-- `get_entry(formal_name, data)`: normalize a stored value to the dict
shape; an absent key yields the all-empty record. -/
def get_entry (formal_name : String) (data : NameDict) : NameEntry :=
  match dget data formal_name with
  | some r => entryOfRecord r
  | none => ⟨[], [], [], none⟩

/-- Python `s.lower()`: lower-case every character (the core library's
`String.toLower` computes the same string but by a well-founded recursion;
this structural form lets the kernel evaluate concrete inputs). -/
def pyLower (s : String) : String := ⟨s.data.map Char.toLower⟩

/-- Contiguous-sublist check on character lists (helper for `strIn`). -/
def subAt (a : List Char) : List Char → Bool
  | [] => a.isEmpty
  | c :: t => a.isPrefixOf (c :: t) || subAt a t

/-- Python substring containment `a in b` on strings. -/
def strIn (a b : String) : Bool := subAt a.toList b.toList

/-- `search_by_nickname(nickname, data)`: collect the formal names whose raw
stored value yields some string case-insensitively equal to the query. -/
def search_by_nickname (nickname : String) (data : NameDict) : List String :=
  (data.filter
      (fun p => (recIter p.2).any (fun n => pyLower n == pyLower nickname))).map
    Prod.fst

/-- Sort key of `sorted(results, key=lambda x: -x[1])` on score pairs:
descending by score; `insertionSort` with this relation is stable, matching
Python's stable sort. -/
def byScore2 (x y : String × Nat) : Prop := y.2 ≤ x.2

instance : DecidableRel byScore2 := fun _ _ => Nat.decLe _ _

instance : IsTotal (String × Nat) byScore2 := ⟨fun a b => Nat.le_total b.2 a.2⟩

instance : IsTrans (String × Nat) byScore2 :=
  ⟨fun _ _ _ h1 h2 => Nat.le_trans h2 h1⟩

/-- Descending sort key for the aggregator's result triples. -/
def byScore3 (x y : String × Nat × List String) : Prop := y.2.1 ≤ x.2.1

instance : DecidableRel byScore3 := fun _ _ => Nat.decLe _ _

instance : IsTotal (String × Nat × List String) byScore3 :=
  ⟨fun a b => Nat.le_total b.2.1 a.2.1⟩

instance : IsTrans (String × Nat × List String) byScore3 :=
  ⟨fun _ _ _ h1 h2 => Nat.le_trans h2 h1⟩

/-- The inner `for n in nicknames` loop of `search_by_nickname_strength` for
one formal name: exact match appends `(formal, 100)` and breaks; otherwise,
in partial-match mode, a substring hit appends `(formal, 70)`; otherwise the
fuzzy score is emitted when it reaches the threshold 70.  `nl` is the
pre-lowered query. -/
def scanNicks (ratio : String → String → Nat) (nl : String) (pmode : Bool)
    (formal : String) : List String → List (String × Nat)
  | [] => []
  | n :: rest =>
    if pyLower n = nl then [(formal, 100)]
    else if pmode && strIn nl (pyLower n) then
      (formal, 70) :: scanNicks ratio nl pmode formal rest
    else if 70 ≤ ratio nl (pyLower n) then
      (formal, ratio nl (pyLower n)) :: scanNicks ratio nl pmode formal rest
    else scanNicks ratio nl pmode formal rest

/-- `search_by_nickname_strength(nickname, data, partial_match)`: run the
per-name scan over every stored value and sort descending by score. -/
def search_by_nickname_strength (ratio : String → String → Nat)
    (nickname : String) (data : NameDict) (pmode : Bool) :
    List (String × Nat) :=
  (data.foldl
      (fun acc p => acc ++ scanNicks ratio (pyLower nickname) pmode p.1 (recIter p.2))
      []).insertionSort byScore2

/-- `get_soundex_code(name)`: call the external encoder, turning a raised
exception into `None`. -/
def get_soundex_code (sdx : String → Except Unit String) (name : String) :
    Option String :=
  match sdx name with
  | .ok c => some c
  | .error _ => none

/-- Python truthiness of the optional code: `None` and the empty string are
falsy. -/
def truthyStr : Option String → Bool
  | none => false
  | some s => decide (s ≠ "")

/-- `search_by_soundex(name, data)`: empty when the query code is falsy;
otherwise collect the formal names (keys) whose own code is truthy and equal
to the query code.  Codes are computed from the formal-name strings, the
stored records are never consulted. -/
def search_by_soundex (sdx : String → Except Unit String) (name : String)
    (data : NameDict) : List String :=
  let code := get_soundex_code sdx name
  if truthyStr code then
    (data.filter (fun p =>
        let mc := get_soundex_code sdx p.1
        truthyStr mc && decide (mc = code))).map Prod.fst
  else []

/-- First aggregator pass: `seen[name] = {"score": 100, "sources": ["Exact"]}`. -/
def step1 (s : List (String × Nat × List String)) (name : String) :
    List (String × Nat × List String) :=
  dset s name (100, ["Exact"])

/-- Second aggregator pass: merge one fuzzy/partial hit into `seen`. -/
def step2 (s : List (String × Nat × List String)) (p : String × Nat) :
    List (String × Nat × List String) :=
  match dget s p.1 with
  | some sc => dset s p.1 (max sc.1 p.2, sc.2 ++ ["Fuzzy/Partial"])
  | none => dset s p.1 (p.2, ["Fuzzy/Partial"])

/-- Third aggregator pass: merge one Soundex hit into `seen`. -/
def step3 (s : List (String × Nat × List String)) (name : String) :
    List (String × Nat × List String) :=
  match dget s name with
  | some sc => dset s name (max sc.1 65, sc.2 ++ ["Soundex"])
  | none => dset s name (65, ["Soundex"])

/-- `best_guess_matches(nickname, data)`: run the exact, fuzzy/partial and
Soundex matchers in order, merge into the insertion-ordered `seen` dict, and
sort the collected triples descending by score. -/
def best_guess_matches (ratio : String → String → Nat)
    (sdx : String → Except Unit String) (nickname : String)
    (data : NameDict) : List (String × Nat × List String) :=
  let seen1 := (search_by_nickname nickname data).foldl step1 []
  let seen2 :=
    (search_by_nickname_strength ratio nickname data true).foldl step2 seen1
  let seen3 := (search_by_soundex sdx nickname data).foldl step3 seen2
  ((seen3.map (fun p => (p.1, p.2.1, p.2.2)))).insertionSort byScore3

/-- The century guard `if century and century not in entry["century"]`:
Python truthiness makes `None` and `0` impose no restriction. -/
def centuryBlocks : Option Int → NameEntry → Bool
  | none, _ => false
  | some c, e => decide (c ≠ 0) && !(e.century.contains c)

/-- The region guard
`if region and region.lower() not in [r.lower() for r in entry["region"]]`:
`None` and the empty string impose no restriction. -/
def regionBlocks : Option String → NameEntry → Bool
  | none, _ => false
  | some r, e =>
      decide (r ≠ "") && !((e.region.map pyLower).contains (pyLower r))

/-- `filter_nicknames_by_metadata(data, century=None, region=None)`: the
function has exactly these two optional constraints; each surviving key is
stored with its normalized entry. -/
def filter_nicknames_by_metadata (data : NameDict) (century : Option Int)
    (region : Option String) : List (String × NameEntry) :=
  data.foldl
    (fun filtered p =>
      let entry := get_entry p.1 data
      if centuryBlocks century entry then filtered
      else if regionBlocks region entry then filtered
      else dset filtered p.1 entry)
    []

/-- The scores the three matchers contribute for one formal name: 100 if the
exact matcher found it, every raw fuzzy/partial score emitted for it, and 65
if the Soundex matcher found it. -/
def fhits (L : List (String × Nat)) (n : String) : List Nat :=
  L.filterMap (fun p => if p.1 = n then some p.2 else none)

def contribs (ratio : String → String → Nat)
    (sdx : String → Except Unit String) (q : String) (data : NameDict)
    (n : String) : List Nat :=
  (if n ∈ search_by_nickname q data then [100] else []) ++
    fhits (search_by_nickname_strength ratio q data true) n ++
      (if n ∈ search_by_soundex sdx q data then [65] else [])

/-- Rewrite the "subregion" field of a stored value (a legacy list has no
such field). -/
def setSub : NickRecord → Option (List String) → NickRecord
  | .legacy ns, _ => .legacy ns
  | .structured ns cs rs _, sub => .structured ns cs rs sub

/-- Rewrite every entry's "subregion" field by a key-indexed choice. -/
def mapSub (data : NameDict) (f : String → Option (List String)) : NameDict :=
  data.map (fun p => (p.1, setSub p.2 (f p.1)))

/-- The spec's example dictionary: one structured record. -/
def williamDict : NameDict :=
  [("William", .structured ["Will", "Bill", "Liam"] [20] ["English"] none)]

/-- A legacy record whose two nicknames both contain the query "ab". -/
def dupDict : NameDict := [("F", .legacy ["abc", "abd"])]

/-- A dictionary mixing the structured and the legacy shape. -/
def mixedDict : NameDict :=
  [("William", .structured ["Will", "Bill", "Liam"] [20] ["English"] none),
   ("Ann", .legacy ["Annie"])]

/-- A concrete similarity function (the scores it returns are irrelevant to
the facts proved with it: on the inputs used it is below every threshold,
as the real `fuzz.ratio` is). -/
def ratio0 : String → String → Nat := fun _ _ => 0

/-- A phonetic encoder that always raises. -/
def sdxErr : String → Except Unit String := fun _ => Except.error ()

/-- A phonetic encoder agreeing with the real `Soundex(4)` on the names used
in the concrete inputs below. -/
def sdxTable : String → Except Unit String := fun n =>
  Except.ok
    (if n = "Bill" then "B400"
     else if n = "William" then "W450"
     else if n = "ab" then "A100"
     else if n = "F" then "F000"
     else "W400")

theorem dget_dset_self {α : Type} (m : List (String × α)) (k : String)
    (v : α) : dget (dset m k v) k = some v := by
  induction m with
  | nil => simp [dget, dset]
  | cons p rest ih =>
    by_cases h : p.1 = k
    · simp [dset, h, dget]
    · simp [dset, h, dget, ih]

theorem dget_dset_ne {α : Type} (m : List (String × α)) (k k' : String)
    (v : α) (h : k' ≠ k) : dget (dset m k v) k' = dget m k' := by
  induction m with
  | nil => simp [dget, dset, Ne.symm h]
  | cons p rest ih =>
    by_cases hp : p.1 = k
    · simp [dset, hp, dget, Ne.symm h]
    · simp [dset, hp, dget, ih]

theorem keys_dset_mem {α : Type} (m : List (String × α)) (k : String) (v : α)
    (h : k ∈ m.map Prod.fst) :
    (dset m k v).map Prod.fst = m.map Prod.fst := by
  induction m with
  | nil => simp at h
  | cons p rest ih =>
    by_cases hp : p.1 = k
    · simp [dset, hp]
    · simp only [List.map_cons, List.mem_cons] at h
      rcases h with h | h
    <;> first
      | exact absurd h.symm hp
      | simp [dset, hp, ih h]

theorem keys_dset_not_mem {α : Type} (m : List (String × α)) (k : String)
    (v : α) (h : k ∉ m.map Prod.fst) :
    (dset m k v).map Prod.fst = m.map Prod.fst ++ [k] := by
  induction m with
  | nil => simp [dset]
  | cons p rest ih =>
    simp only [List.map_cons, List.mem_cons] at h
    push_neg at h
    simp [dset, Ne.symm h.1, ih h.2]

theorem nodup_keys_dset {α : Type} (m : List (String × α)) (k : String)
    (v : α) (h : (m.map Prod.fst).Nodup) :
    ((dset m k v).map Prod.fst).Nodup := by
  by_cases hk : k ∈ m.map Prod.fst
  · rw [keys_dset_mem m k v hk]; exact h
  · rw [keys_dset_not_mem m k v hk]
    simp [List.nodup_append, h, hk]

theorem dget_eq_none {α : Type} (m : List (String × α)) (k : String)
    (h : k ∉ m.map Prod.fst) : dget m k = none := by
  induction m with
  | nil => rfl
  | cons p rest ih =>
    simp only [List.map_cons, List.mem_cons] at h
    push_neg at h
    simp [dget, Ne.symm h.1, ih h.2]

theorem dget_of_mem {α : Type} {m : List (String × α)} {k : String} {v : α}
    (hnd : (m.map Prod.fst).Nodup) (h : (k, v) ∈ m) : dget m k = some v := by
  induction m with
  | nil => simp at h
  | cons p rest ih =>
    simp only [List.map_cons, List.nodup_cons] at hnd
    rcases List.mem_cons.mp h with h | h
    · simp [dget, ← h]
    · have hk : k ∈ rest.map Prod.fst :=
        List.mem_map.mpr ⟨(k, v), h, rfl⟩
      have hp : p.1 ≠ k := fun he => hnd.1 (he ▸ hk)
      simp [dget, hp, ih hnd.2 h]

theorem mem_of_dget {α : Type} {m : List (String × α)} {k : String} {v : α}
    (h : dget m k = some v) : (k, v) ∈ m := by
  induction m with
  | nil => simp [dget] at h
  | cons p rest ih =>
    by_cases hp : p.1 = k
    · simp only [dget, hp, if_pos] at h
      cases h
      rw [← hp]
      exact List.mem_cons_self _ _
    · simp only [dget, hp, if_neg, ite_false] at h
      exact List.mem_cons_of_mem _ (ih h)

/-- After the exact pass, a name is in `seen` with score 100 and source tag
"Exact" exactly when the exact matcher emitted it. -/
theorem dget_fold_step1 (L : List String)
    (s : List (String × Nat × List String)) (n : String) :
    dget (L.foldl step1 s) n =
      if n ∈ L then some (100, ["Exact"]) else dget s n := by
  induction L generalizing s with
  | nil => simp
  | cons a t ih =>
    simp only [List.foldl_cons, ih, step1]
    by_cases hn : n ∈ t
    · simp [hn]
    · by_cases ha : n = a
      · subst ha
        simp [hn, dget_dset_self]
      · simp [hn, ha, dget_dset_ne _ _ _ _ ha]

theorem fhits_cons (p : String × Nat) (t : List (String × Nat)) (n : String) :
    fhits (p :: t) n = (if p.1 = n then [p.2] else []) ++ fhits t n := by
  by_cases hp : p.1 = n <;> simp [fhits, hp]

/-- After the fuzzy/partial pass, the score accumulated for a name is the
running maximum over its raw hits, and one "Fuzzy/Partial" tag has been
appended per raw hit. -/
theorem dget_fold_step2 (L : List (String × Nat))
    (s : List (String × Nat × List String)) (n : String) :
    dget (L.foldl step2 s) n =
      match dget s n with
      | some sc =>
          some (List.foldl max sc.1 (fhits L n),
            sc.2 ++ List.replicate (fhits L n).length "Fuzzy/Partial")
      | none =>
          match fhits L n with
          | [] => none
          | h :: t =>
              some (List.foldl max h t,
                List.replicate (t.length + 1) "Fuzzy/Partial")
      := by
  induction L generalizing s with
  | nil => cases hs : dget s n <;> simp [fhits, hs]
  | cons p t ih =>
    simp only [List.foldl_cons]
    rw [ih]
    by_cases hp : p.1 = n
    · have hf : fhits (p :: t) n = p.2 :: fhits t n := by
        simp [fhits_cons, hp]
      cases hs : dget s n with
      | some sc =>
        have h2 : dget (step2 s p) n =
            some (max sc.1 p.2, sc.2 ++ ["Fuzzy/Partial"]) := by
          simp only [step2]
          rw [hp, hs]
          exact dget_dset_self _ _ _
        rw [h2, hf]
        simp [List.replicate_succ, List.foldl_cons, List.append_assoc]
      | none =>
        have h2 : dget (step2 s p) n = some (p.2, ["Fuzzy/Partial"]) := by
          simp only [step2]
          rw [hp, hs]
          exact dget_dset_self _ _ _
        rw [h2, hf]
        simp [List.replicate_succ]
    · have hf : fhits (p :: t) n = fhits t n := by
        simp [fhits_cons, hp]
      have h2 : dget (step2 s p) n = dget s n := by
        simp only [step2]
        cases dget s p.1 <;>
          exact dget_dset_ne _ _ _ _ (fun he => hp he.symm)
      rw [h2, hf]

theorem foldl_max_self (x : Nat) (k : Nat) :
    List.foldl max x (List.replicate k x) = x := by
  induction k with
  | zero => rfl
  | succ k ih => simp [List.replicate_succ, Nat.max_self, ih]

/-- After the Soundex pass, the accumulated score has been maxed with 65 once
per occurrence of the name in the phonetic matcher's output, and one
"Soundex" tag appended per occurrence. -/
theorem dget_fold_step3 (L : List String)
    (s : List (String × Nat × List String)) (n : String) :
    dget (L.foldl step3 s) n =
      match dget s n with
      | some sc =>
          some (List.foldl max sc.1 (List.replicate (L.count n) 65),
            sc.2 ++ List.replicate (L.count n) "Soundex")
      | none =>
          match L.count n with
          | 0 => none
          | k + 1 => some (65, List.replicate (k + 1) "Soundex")
      := by
  induction L generalizing s with
  | nil => cases hs : dget s n <;> simp [hs]
  | cons a t ih =>
    simp only [List.foldl_cons]
    rw [ih]
    by_cases ha : a = n
    · have hc : (a :: t).count n = t.count n + 1 := by
        simp [List.count_cons, ha]
      cases hs : dget s n with
      | some sc =>
        have h3 : dget (step3 s a) n =
            some (max sc.1 65, sc.2 ++ ["Soundex"]) := by
          simp only [step3]
          rw [ha, hs]
          exact dget_dset_self _ _ _
        rw [h3, hc]
        simp [List.replicate_succ, List.append_assoc]
      | none =>
        have h3 : dget (step3 s a) n = some (65, ["Soundex"]) := by
          simp only [step3]
          rw [ha, hs]
          exact dget_dset_self _ _ _
        rw [h3, hc]
        simp [List.replicate_succ, foldl_max_self]
    · have hc : (a :: t).count n = t.count n := by
        simp [List.count_cons, ha]
      have h3 : dget (step3 s a) n = dget s n := by
        simp only [step3]
        cases dget s a <;>
          exact dget_dset_ne _ _ _ _ (fun he => ha he.symm)
      rw [h3, hc]

theorem nodup_keys_fold_step1 (L : List String)
    (s : List (String × Nat × List String))
    (h : (s.map Prod.fst).Nodup) :
    (((L.foldl step1 s)).map Prod.fst).Nodup := by
  induction L generalizing s with
  | nil => exact h
  | cons a t ih => exact ih _ (nodup_keys_dset _ _ _ h)

theorem nodup_keys_fold_step2 (L : List (String × Nat))
    (s : List (String × Nat × List String))
    (h : (s.map Prod.fst).Nodup) :
    (((L.foldl step2 s)).map Prod.fst).Nodup := by
  induction L generalizing s with
  | nil => exact h
  | cons a t ih =>
    refine ih _ ?_
    simp only [step2]
    cases dget s a.1 <;> exact nodup_keys_dset _ _ _ h

theorem nodup_keys_fold_step3 (L : List String)
    (s : List (String × Nat × List String))
    (h : (s.map Prod.fst).Nodup) :
    (((L.foldl step3 s)).map Prod.fst).Nodup := by
  induction L generalizing s with
  | nil => exact h
  | cons a t ih =>
    refine ih _ ?_
    simp only [step3]
    cases dget s a <;> exact nodup_keys_dset _ _ _ h

theorem map_flat_eq (l : List (String × Nat × List String)) :
    l.map (fun p => (p.1, p.2.1, p.2.2)) = l :=
  List.map_id l

/-- Claim C1: the claim asserts that for every nickname stored in a record of
either shape, `search_by_nickname` finds the formal name.  On the structured
record of `williamDict` the stored nickname "Bill" is present, yet the search
returns the empty list: the loop iterates the record dict's keys, never its
nickname list. -/
theorem c1_structured_record_misses_nickname :
    "Bill" ∈ (get_entry "William" williamDict).nicknames ∧
      search_by_nickname "Bill" williamDict = [] := by
  constructor
  · decide
  · decide

theorem foldl_max_replicate (x c : Nat) (k : Nat) :
    List.foldl max x (List.replicate k c) = if k = 0 then x else max x c := by
  induction k generalizing x with
  | zero => rfl
  | succ k ih =>
    simp only [List.replicate_succ, List.foldl_cons, ih]
    by_cases hk : k = 0 <;> simp [hk, Nat.max_assoc, Nat.max_self]

/-- Claim C5: `best_guess_matches` returns each formal name at most once, in
non-increasing score order, and each entry's score is the maximum over the
scores contributed by the three matchers for that name (100 for exact, each
raw fuzzy/partial score, 65 for Soundex). -/
theorem c5_best_guess_invariants (ratio : String → String → Nat)
    (sdx : String → Except Unit String) (q : String) (data : NameDict) :
    ((best_guess_matches ratio sdx q data).map Prod.fst).Nodup ∧
      List.Pairwise byScore3 (best_guess_matches ratio sdx q data) ∧
      ∀ n sc srcs, (n, sc, srcs) ∈ best_guess_matches ratio sdx q data →
        sc = (contribs ratio sdx q data n).foldl max 0 := by
  have hout : best_guess_matches ratio sdx q data =
      ((search_by_soundex sdx q data).foldl step3
        ((search_by_nickname_strength ratio q data true).foldl step2
          ((search_by_nickname q data).foldl step1 []))).insertionSort
        byScore3 := by
    simp only [best_guess_matches, map_flat_eq]
  have hnd : ((((search_by_soundex sdx q data).foldl step3
      ((search_by_nickname_strength ratio q data true).foldl step2
        ((search_by_nickname q data).foldl step1 [])))).map Prod.fst).Nodup :=
    nodup_keys_fold_step3 _ _
      (nodup_keys_fold_step2 _ _ (nodup_keys_fold_step1 _ _ (by simp)))
  have hperm := List.perm_insertionSort byScore3
      ((search_by_soundex sdx q data).foldl step3
        ((search_by_nickname_strength ratio q data true).foldl step2
          ((search_by_nickname q data).foldl step1 [])))
  refine ⟨?_, ?_, ?_⟩
  · rw [hout]
    exact ((hperm.map Prod.fst).nodup_iff).mpr hnd
  · rw [hout]
    exact List.sorted_insertionSort byScore3 _
  · intro n sc srcs hm
    rw [hout] at hm
    have hm2 := hperm.mem_iff.mp hm
    have hd := dget_of_mem hnd hm2
    simp only [contribs]
    by_cases hE : n ∈ search_by_nickname q data
    · have h1 : dget ((search_by_nickname q data).foldl step1 []) n
          = some (100, ["Exact"]) := by
        rw [dget_fold_step1]
        simp [hE]
      have h2 : dget ((search_by_nickname_strength ratio q data true).foldl
            step2 ((search_by_nickname q data).foldl step1 [])) n
          = some (List.foldl max 100
                (fhits (search_by_nickname_strength ratio q data true) n),
              ["Exact"] ++ List.replicate
                (fhits (search_by_nickname_strength ratio q data true) n).length
                "Fuzzy/Partial") := by
        rw [dget_fold_step2, h1]
      have h3 : dget ((search_by_soundex sdx q data).foldl step3
            ((search_by_nickname_strength ratio q data true).foldl step2
              ((search_by_nickname q data).foldl step1 []))) n
          = some (List.foldl max
                (List.foldl max 100
                  (fhits (search_by_nickname_strength ratio q data true) n))
                (List.replicate ((search_by_soundex sdx q data).count n) 65),
              (["Exact"] ++ List.replicate
                (fhits (search_by_nickname_strength ratio q data true) n).length
                "Fuzzy/Partial") ++ List.replicate
                ((search_by_soundex sdx q data).count n) "Soundex") := by
        rw [dget_fold_step3, h2]
      rw [h3] at hd
      simp only [Option.some.injEq, Prod.mk.injEq] at hd
      rw [← hd.1]
      rw [if_pos hE]
      simp only [List.cons_append, List.nil_append, List.foldl_cons,
        List.foldl_append, Nat.zero_max, foldl_max_replicate]
      by_cases hS : n ∈ search_by_soundex sdx q data
      · have hc : (search_by_soundex sdx q data).count n ≠ 0 :=
          fun h0 => (List.count_eq_zero.mp h0) hS
        simp [hS, hc]
      · have hc : (search_by_soundex sdx q data).count n = 0 :=
          List.count_eq_zero.mpr hS
        simp [hS, hc]
    · have h1 : dget ((search_by_nickname q data).foldl step1 []) n
          = none := by
        rw [dget_fold_step1]
        simp [hE, dget]
      cases hfh : fhits (search_by_nickname_strength ratio q data true) n with
      | nil =>
        have h2 : dget ((search_by_nickname_strength ratio q data true).foldl
              step2 ((search_by_nickname q data).foldl step1 [])) n
            = none := by
          rw [dget_fold_step2, h1, hfh]
        cases hcnt : (search_by_soundex sdx q data).count n with
        | zero =>
          have h3 : dget ((search_by_soundex sdx q data).foldl step3
                ((search_by_nickname_strength ratio q data true).foldl step2
                  ((search_by_nickname q data).foldl step1 []))) n
              = none := by
            rw [dget_fold_step3, h2, hcnt]
          rw [h3] at hd
          cases hd
        | succ k =>
          have h3 : dget ((search_by_soundex sdx q data).foldl step3
                ((search_by_nickname_strength ratio q data true).foldl step2
                  ((search_by_nickname q data).foldl step1 []))) n
              = some (65, List.replicate (k + 1) "Soundex") := by
            rw [dget_fold_step3, h2, hcnt]
          rw [h3] at hd
          simp only [Option.some.injEq, Prod.mk.injEq] at hd
          rw [← hd.1]
          have hS : n ∈ search_by_soundex sdx q data := by
            by_contra hn
            rw [List.count_eq_zero.mpr hn] at hcnt
            cases hcnt
          rw [if_neg hE, if_pos hS]
          simp
      | cons h t =>
        have h2 : dget ((search_by_nickname_strength ratio q data true).foldl
              step2 ((search_by_nickname q data).foldl step1 [])) n
            = some (List.foldl max h t,
                List.replicate (t.length + 1) "Fuzzy/Partial") := by
          rw [dget_fold_step2, h1, hfh]
        have h3 : dget ((search_by_soundex sdx q data).foldl step3
              ((search_by_nickname_strength ratio q data true).foldl step2
                ((search_by_nickname q data).foldl step1 []))) n
            = some (List.foldl max (List.foldl max h t)
                  (List.replicate ((search_by_soundex sdx q data).count n) 65),
                List.replicate (t.length + 1) "Fuzzy/Partial" ++
                  List.replicate ((search_by_soundex sdx q data).count n)
                    "Soundex") := by
          rw [dget_fold_step3, h2]
        rw [h3] at hd
        simp only [Option.some.injEq, Prod.mk.injEq] at hd
        rw [← hd.1]
        rw [if_neg hE]
        simp only [List.nil_append, List.cons_append, List.foldl_cons,
          List.foldl_append, Nat.zero_max, foldl_max_replicate]
        by_cases hS : n ∈ search_by_soundex sdx q data
        · have hc : (search_by_soundex sdx q data).count n ≠ 0 :=
            fun h0 => (List.count_eq_zero.mp h0) hS
          simp [hS, hc]
        · have hc : (search_by_soundex sdx q data).count n = 0 :=
            List.count_eq_zero.mpr hS
          simp [hS, hc]

theorem nodup_search_by_soundex (sdx : String → Except Unit String)
    (q : String) (data : NameDict) (hnd : (data.map Prod.fst).Nodup) :
    (search_by_soundex sdx q data).Nodup := by
  simp only [search_by_soundex]
  split
  · exact List.Nodup.sublist ((List.filter_sublist data).map Prod.fst) hnd
  · exact List.nodup_nil

/-- Claim C4 counterexample: on the legacy record `{"F": ["abc", "abd"]}` with
query "ab", both nicknames give a fuzzy/partial substring hit, and the
aggregator appends the "Fuzzy/Partial" tag once per hit, so the sources list
contains a duplicated tag, contradicting "contains no duplicated tag".  (The
similarity function is never consulted on this input — both hits come from
the substring branch — and the phonetic table agrees with the real encoder:
"ab" and "F" have different Soundex codes.) -/
theorem c4_counterexample :
    best_guess_matches ratio0 sdxTable "ab" dupDict =
      [("F", 70, ["Fuzzy/Partial", "Fuzzy/Partial"])] := by decide

/-- Claim C4 (amended): in each candidate of `best_guess_matches` (over a
dictionary with distinct keys), the sources list consists of "Exact" at most
once and first, then a block of "Fuzzy/Partial" tags — one per raw
fuzzy/partial hit, so possibly repeated — then "Soundex" at most once and
last.  Hence distinct tags appear in the order Exact, Fuzzy/Partial,
Soundex, but the Fuzzy/Partial tag is not deduplicated. -/
theorem c4_sources_structure (ratio : String → String → Nat)
    (sdx : String → Except Unit String) (q : String) (data : NameDict)
    (hnd : (data.map Prod.fst).Nodup) (n : String) (sc : Nat)
    (srcs : List String)
    (hm : (n, sc, srcs) ∈ best_guess_matches ratio sdx q data) :
    ∃ (e s : Bool) (k : Nat),
      srcs = (if e then ["Exact"] else []) ++
        List.replicate k "Fuzzy/Partial" ++
          (if s then ["Soundex"] else []) := by
  have hout : best_guess_matches ratio sdx q data =
      ((search_by_soundex sdx q data).foldl step3
        ((search_by_nickname_strength ratio q data true).foldl step2
          ((search_by_nickname q data).foldl step1 []))).insertionSort
        byScore3 := by
    simp only [best_guess_matches, map_flat_eq]
  have hnds : ((((search_by_soundex sdx q data).foldl step3
      ((search_by_nickname_strength ratio q data true).foldl step2
        ((search_by_nickname q data).foldl step1 [])))).map Prod.fst).Nodup :=
    nodup_keys_fold_step3 _ _
      (nodup_keys_fold_step2 _ _ (nodup_keys_fold_step1 _ _ (by simp)))
  have hperm := List.perm_insertionSort byScore3
      ((search_by_soundex sdx q data).foldl step3
        ((search_by_nickname_strength ratio q data true).foldl step2
          ((search_by_nickname q data).foldl step1 [])))
  rw [hout] at hm
  have hm2 := hperm.mem_iff.mp hm
  have hd := dget_of_mem hnds hm2
  have hcle : (search_by_soundex sdx q data).count n ≤ 1 :=
    List.nodup_iff_count_le_one.mp (nodup_search_by_soundex sdx q data hnd) n
  by_cases hE : n ∈ search_by_nickname q data
  · have h1 : dget ((search_by_nickname q data).foldl step1 []) n
        = some (100, ["Exact"]) := by
      rw [dget_fold_step1]
      simp [hE]
    have h2 : dget ((search_by_nickname_strength ratio q data true).foldl
          step2 ((search_by_nickname q data).foldl step1 [])) n
        = some (List.foldl max 100
              (fhits (search_by_nickname_strength ratio q data true) n),
            ["Exact"] ++ List.replicate
              (fhits (search_by_nickname_strength ratio q data true) n).length
              "Fuzzy/Partial") := by
      rw [dget_fold_step2, h1]
    have h3 : dget ((search_by_soundex sdx q data).foldl step3
          ((search_by_nickname_strength ratio q data true).foldl step2
            ((search_by_nickname q data).foldl step1 []))) n
        = some (List.foldl max
              (List.foldl max 100
                (fhits (search_by_nickname_strength ratio q data true) n))
              (List.replicate ((search_by_soundex sdx q data).count n) 65),
            (["Exact"] ++ List.replicate
              (fhits (search_by_nickname_strength ratio q data true) n).length
              "Fuzzy/Partial") ++ List.replicate
              ((search_by_soundex sdx q data).count n) "Soundex") := by
      rw [dget_fold_step3, h2]
    rw [h3] at hd
    simp only [Option.some.injEq, Prod.mk.injEq] at hd
    refine ⟨true, (search_by_soundex sdx q data).count n != 0,
      (fhits (search_by_nickname_strength ratio q data true) n).length, ?_⟩
    rw [← hd.2]
    interval_cases hc : (search_by_soundex sdx q data).count n <;> simp
  · have h1 : dget ((search_by_nickname q data).foldl step1 []) n
        = none := by
      rw [dget_fold_step1]
      simp [hE, dget]
    cases hfh : fhits (search_by_nickname_strength ratio q data true) n with
    | nil =>
      have h2 : dget ((search_by_nickname_strength ratio q data true).foldl
            step2 ((search_by_nickname q data).foldl step1 [])) n
          = none := by
        rw [dget_fold_step2, h1, hfh]
      cases hcnt : (search_by_soundex sdx q data).count n with
      | zero =>
        have h3 : dget ((search_by_soundex sdx q data).foldl step3
              ((search_by_nickname_strength ratio q data true).foldl step2
                ((search_by_nickname q data).foldl step1 []))) n
            = none := by
          rw [dget_fold_step3, h2, hcnt]
        rw [h3] at hd
        cases hd
      | succ k =>
        have h3 : dget ((search_by_soundex sdx q data).foldl step3
              ((search_by_nickname_strength ratio q data true).foldl step2
                ((search_by_nickname q data).foldl step1 []))) n
            = some (65, List.replicate (k + 1) "Soundex") := by
          rw [dget_fold_step3, h2, hcnt]
        rw [h3] at hd
        simp only [Option.some.injEq, Prod.mk.injEq] at hd
        have hk : k = 0 := by
          rw [hcnt] at hcle
          omega
        refine ⟨false, true, 0, ?_⟩
        rw [← hd.2, hk]
        simp [List.replicate_succ]
    | cons h t =>
      have h2 : dget ((search_by_nickname_strength ratio q data true).foldl
            step2 ((search_by_nickname q data).foldl step1 [])) n
          = some (List.foldl max h t,
              List.replicate (t.length + 1) "Fuzzy/Partial") := by
        rw [dget_fold_step2, h1, hfh]
      have h3 : dget ((search_by_soundex sdx q data).foldl step3
            ((search_by_nickname_strength ratio q data true).foldl step2
              ((search_by_nickname q data).foldl step1 []))) n
          = some (List.foldl max (List.foldl max h t)
                (List.replicate ((search_by_soundex sdx q data).count n) 65),
              List.replicate (t.length + 1) "Fuzzy/Partial" ++
                List.replicate ((search_by_soundex sdx q data).count n)
                  "Soundex") := by
        rw [dget_fold_step3, h2]
      rw [h3] at hd
      simp only [Option.some.injEq, Prod.mk.injEq] at hd
      refine ⟨false, (search_by_soundex sdx q data).count n != 0,
        t.length + 1, ?_⟩
      rw [← hd.2]
      interval_cases hc : (search_by_soundex sdx q data).count n <;> simp

/-- Witness for the amended C4 theorem at a concrete input: on `dupDict` with
query "ab" the candidate ("F", 70, ["Fuzzy/Partial", "Fuzzy/Partial"]) has
the stated shape (no Exact, two Fuzzy/Partial, no Soundex). -/
theorem c4_sources_structure_witness :
    ∃ (e s : Bool) (k : Nat),
      ["Fuzzy/Partial", "Fuzzy/Partial"] =
        (if e then ["Exact"] else []) ++
          List.replicate k "Fuzzy/Partial" ++
            (if s then ["Soundex"] else []) :=
  c4_sources_structure ratio0 sdxTable "ab" dupDict (by decide) "F" 70
    ["Fuzzy/Partial", "Fuzzy/Partial"] (by decide)

/-- Witness for C5 at a concrete input: for the candidate
("F", 70, ["Fuzzy/Partial", "Fuzzy/Partial"]) of the "ab" query on
`dupDict`, the score 70 is the maximum matcher contribution. -/
theorem c5_best_guess_invariants_witness :
    (70 : Nat) = (contribs ratio0 sdxTable "ab" dupDict "F").foldl max 0 :=
  (c5_best_guess_invariants ratio0 sdxTable "ab" dupDict).2.2 "F" 70
    ["Fuzzy/Partial", "Fuzzy/Partial"] (by decide)

/-- Claim C2: the spec's example asserts
`best_guess_matches("Bill", williamDict) = [("William", 100, ["Exact"])]` and
that "Wil" yields ("William", 70, ["Fuzzy/Partial"]).  In fact both calls
return the EMPTY list.  The hypotheses state the true facts about the
external libraries: every fuzzy ratio between the lowered query and the
structured record's keys ("nicknames"/"century"/"region" — the only strings
the matchers iterate) is below the 70 threshold, and the Soundex codes of
"Bill" and "Wil" differ from "William"'s. -/
theorem c2_example_returns_empty (ratio : String → String → Nat)
    (sdx : String → Except Unit String)
    (h1 : ratio "bill" "nicknames" < 70) (h2 : ratio "bill" "century" < 70)
    (h3 : ratio "bill" "region" < 70)
    (h4 : ratio "wil" "nicknames" < 70) (h5 : ratio "wil" "century" < 70)
    (h6 : ratio "wil" "region" < 70)
    (hb : get_soundex_code sdx "Bill" = some "B400")
    (hw : get_soundex_code sdx "Wil" = some "W400")
    (hwm : get_soundex_code sdx "William" = some "W450") :
    best_guess_matches ratio sdx "Bill" williamDict = [] ∧
      best_guess_matches ratio sdx "Wil" williamDict = [] := by
  have hpn : pyLower "nicknames" = "nicknames" := by decide
  have hpc : pyLower "century" = "century" := by decide
  have hpr : pyLower "region" = "region" := by decide
  have hscanB : scanNicks ratio "bill" true "William"
      ["nicknames", "century", "region"] = [] := by
    simp only [scanNicks, hpn, hpc, hpr]
    rw [if_neg (by decide), if_neg (by decide),
      if_neg (Nat.not_le.mpr h1), if_neg (by decide), if_neg (by decide),
      if_neg (Nat.not_le.mpr h2), if_neg (by decide), if_neg (by decide),
      if_neg (Nat.not_le.mpr h3)]
  have hscanW : scanNicks ratio "wil" true "William"
      ["nicknames", "century", "region"] = [] := by
    simp only [scanNicks, hpn, hpc, hpr]
    rw [if_neg (by decide), if_neg (by decide),
      if_neg (Nat.not_le.mpr h4), if_neg (by decide), if_neg (by decide),
      if_neg (Nat.not_le.mpr h5), if_neg (by decide), if_neg (by decide),
      if_neg (Nat.not_le.mpr h6)]
  have hFB : search_by_nickname_strength ratio "Bill" williamDict true = [] := by
    simp only [search_by_nickname_strength, williamDict, List.foldl_cons,
      List.foldl_nil, List.nil_append, List.append_nil, recIter]
    have hpl : pyLower "Bill" = "bill" := by decide
    rw [hpl, hscanB]
    rfl
  have hFW : search_by_nickname_strength ratio "Wil" williamDict true = [] := by
    simp only [search_by_nickname_strength, williamDict, List.foldl_cons,
      List.foldl_nil, List.nil_append, List.append_nil, recIter]
    have hpl : pyLower "Wil" = "wil" := by decide
    rw [hpl, hscanW]
    rfl
  have hSB : search_by_soundex sdx "Bill" williamDict = [] := by
    simp only [search_by_soundex, hb, williamDict, List.filter_cons, hwm]
    rw [if_pos (by decide)]
    simp
  have hSW : search_by_soundex sdx "Wil" williamDict = [] := by
    simp only [search_by_soundex, hw, williamDict, List.filter_cons, hwm]
    rw [if_pos (by decide)]
    simp
  have hEB : search_by_nickname "Bill" williamDict = [] := by decide
  have hEW : search_by_nickname "Wil" williamDict = [] := by decide
  constructor
  · simp only [best_guess_matches, hEB, hFB, hSB, List.foldl_nil]
    rfl
  · simp only [best_guess_matches, hEW, hFW, hSW, List.foldl_nil]
    rfl

/-- Witness for C2: the hypotheses hold at concrete library stand-ins (the
constant-zero ratio and the phonetic table agreeing with the real encoder),
and both calls indeed return []. -/
theorem c2_example_returns_empty_witness :
    best_guess_matches ratio0 sdxTable "Bill" williamDict = [] ∧
      best_guess_matches ratio0 sdxTable "Wil" williamDict = [] :=
  c2_example_returns_empty ratio0 sdxTable (by decide) (by decide) (by decide)
    (by decide) (by decide) (by decide) (by decide) (by decide) (by decide)

/-- When no earlier nickname matches the query exactly, the per-name scan
processes a nickname list segment by segment (the break can only be taken on
an exact hit). -/
theorem scanNicks_append_no_exact (ratio : String → String → Nat)
    (nl : String) (pmode : Bool) (fm : String) (l1 l2 : List String)
    (h : ∀ m ∈ l1, pyLower m ≠ nl) :
    scanNicks ratio nl pmode fm (l1 ++ l2) =
      scanNicks ratio nl pmode fm l1 ++ scanNicks ratio nl pmode fm l2 := by
  induction l1 with
  | nil => simp [scanNicks]
  | cons a t ih =>
    have ha : pyLower a ≠ nl := h a (List.mem_cons_self a t)
    have ih2 := ih (fun m hm => h m (List.mem_cons_of_mem _ hm))
    simp only [List.cons_append, scanNicks, if_neg ha]
    by_cases hc2 : (pmode && strIn nl (pyLower a)) = true
    · simp [hc2, ih2]
    · by_cases hc3 : 70 ≤ ratio nl (pyLower a)
      · simp [hc2, hc3, ih2]
      · simp [hc2, hc3, ih2]

/-- Claim C6: in partial-match mode, when the loop reaches a stored nickname
`n` (no earlier nickname in the list matched exactly, so no break occurred)
such that the lowered query is a substring of lowered `n` but not equal to
it, that nickname contributes exactly the pair `(formal, 70)` — for EVERY
similarity function `ratio`, so the fuzzy distance computation is
short-circuited and no fuzzy score is emitted for that pair. -/
theorem c6_substring_short_circuit (ratio : String → String → Nat)
    (q fm n : String) (pre post : List String)
    (hpre : ∀ m ∈ pre, pyLower m ≠ pyLower q)
    (hsub : strIn (pyLower q) (pyLower n) = true)
    (hne : pyLower n ≠ pyLower q) :
    scanNicks ratio (pyLower q) true fm (pre ++ n :: post) =
      scanNicks ratio (pyLower q) true fm pre ++
        (fm, 70) :: scanNicks ratio (pyLower q) true fm post := by
  rw [scanNicks_append_no_exact ratio _ true fm pre _ hpre]
  congr 1
  have hc : (true && strIn (pyLower q) (pyLower n)) = true := by simp [hsub]
  simp only [scanNicks, if_neg hne, hc, if_true]

/-- Witness for C6: query "ab" against nickname "abc" (no earlier nicknames);
the scan reports exactly the 70-scored pair. -/
theorem c6_substring_short_circuit_witness :
    scanNicks ratio0 (pyLower "ab") true "F" ([] ++ "abc" :: []) =
      scanNicks ratio0 (pyLower "ab") true "F" [] ++
        ("F", 70) :: scanNicks ratio0 (pyLower "ab") true "F" [] :=
  c6_substring_short_circuit ratio0 "ab" "F" "abc" [] []
    (fun m hm => absurd hm (List.not_mem_nil m)) (by decide) (by decide)

theorem map_fst_filter_keydep {α : Type} (g : String → Bool)
    (l : List (String × α)) :
    (l.filter (fun p => g p.1)).map Prod.fst = (l.map Prod.fst).filter g := by
  induction l with
  | nil => rfl
  | cons p t ih =>
    by_cases hg : g p.1 <;> simp [List.filter_cons, hg, ih]

/-- The phonetic matcher reads only the dictionary's keys. -/
theorem search_by_soundex_eq_keys (sdx : String → Except Unit String)
    (q : String) (data : NameDict) :
    search_by_soundex sdx q data =
      if truthyStr (get_soundex_code sdx q) then
        (data.map Prod.fst).filter (fun k =>
          truthyStr (get_soundex_code sdx k) &&
            decide (get_soundex_code sdx k = get_soundex_code sdx q))
      else [] := by
  simp only [search_by_soundex]
  split
  · exact map_fst_filter_keydep
      (fun k => truthyStr (get_soundex_code sdx k) &&
        decide (get_soundex_code sdx k = get_soundex_code sdx q)) data
  · rfl

/-- Claim C7: phonetic matching never raises: the encoder raising is
modelled by `Except.error`, which `get_soundex_code` maps to the absent
value; a falsy query code yields the empty result; and the matcher depends
only on the dictionary's keys (the formal-name strings), never on the stored
records or their nicknames. -/
theorem c7_soundex_total_and_key_only (sdx : String → Except Unit String)
    (q : String) (data data2 : NameDict)
    (hk : data.map Prod.fst = data2.map Prod.fst) :
    search_by_soundex sdx q data = search_by_soundex sdx q data2 ∧
      (truthyStr (get_soundex_code sdx q) = false →
        search_by_soundex sdx q data = []) ∧
      (sdx q = Except.error () → get_soundex_code sdx q = none) := by
  refine ⟨?_, ?_, ?_⟩
  · rw [search_by_soundex_eq_keys, search_by_soundex_eq_keys, hk]
  · intro h
    rw [search_by_soundex_eq_keys, h]
    rfl
  · intro h
    simp [get_soundex_code, h]

/-- Witness for C7: a raising encoder on two dictionaries with the same key
but different records (one legacy, one structured). -/
theorem c7_soundex_total_and_key_only_witness :
    search_by_soundex sdxErr "q" [("A", NickRecord.legacy ["x"])] =
        search_by_soundex sdxErr "q" [("A", NickRecord.structured [] [] [] none)] ∧
      search_by_soundex sdxErr "q" [("A", NickRecord.legacy ["x"])] = [] ∧
      get_soundex_code sdxErr "q" = none := by
  have h := c7_soundex_total_and_key_only sdxErr "q"
    [("A", NickRecord.legacy ["x"])]
    [("A", NickRecord.structured [] [] [] none)] rfl
  exact ⟨h.1, h.2.1 (by decide), h.2.2 rfl⟩

/-- Claim C10: the phonetic matcher is reflexive on dictionary keys — a
formal name `f` that is a key and whose phonetic code is computable (a
non-empty, hence truthy, code) is found when queried by its own spelling. -/
theorem c10_soundex_reflexive (sdx : String → Except Unit String)
    (data : NameDict) (f c : String) (hf : f ∈ data.map Prod.fst)
    (hc : get_soundex_code sdx f = some c) (hne : c ≠ "") :
    f ∈ search_by_soundex sdx f data := by
  rw [search_by_soundex_eq_keys]
  rw [if_pos (by rw [hc]; simpa [truthyStr] using hne)]
  refine List.mem_filter.mpr ⟨hf, ?_⟩
  simp [hc, truthyStr, hne]

/-- Witness for C10: "William" reaches itself through the phonetic matcher. -/
theorem c10_soundex_reflexive_witness :
    "William" ∈ search_by_soundex sdxTable "William" williamDict :=
  c10_soundex_reflexive sdxTable williamDict "William" "W450" (by decide)
    (by decide) (by decide)

theorem foldl_keydep {β : Type} (G : β → String → β) (init : β)
    (l : NameDict) :
    l.foldl (fun a p => G a p.1) init = (l.map Prod.fst).foldl G init := by
  induction l generalizing init with
  | nil => rfl
  | cons p t ih =>
    simp only [List.foldl_cons, List.map_cons]
    exact ih (G init p.1)

theorem keys_mapSub (data : NameDict) (f : String → Option (List String)) :
    (mapSub data f).map Prod.fst = data.map Prod.fst := by
  simp [mapSub]

theorem dget_mapSub (data : NameDict) (f : String → Option (List String))
    (k : String) :
    dget (mapSub data f) k = (dget data k).map (fun r => setSub r (f k)) := by
  induction data with
  | nil => rfl
  | cons p t ih =>
    by_cases hp : p.1 = k
    · simp [mapSub, dget, hp]
    · simp only [mapSub, List.map_cons] at ih ⊢
      simp [dget, hp, ih]

theorem get_entry_mapSub_fields (data : NameDict)
    (f : String → Option (List String)) (k : String) :
    (get_entry k (mapSub data f)).century = (get_entry k data).century ∧
      (get_entry k (mapSub data f)).region = (get_entry k data).region := by
  simp only [get_entry, dget_mapSub]
  cases dget data k with
  | none => simp
  | some r => cases r <;> simp [setSub, entryOfRecord]

theorem centuryBlocks_congr (c : Option Int) (e e2 : NameEntry)
    (h : e.century = e2.century) : centuryBlocks c e = centuryBlocks c e2 := by
  cases c <;> simp [centuryBlocks, h]

theorem regionBlocks_congr (r : Option String) (e e2 : NameEntry)
    (h : e.region = e2.region) : regionBlocks r e = regionBlocks r e2 := by
  cases r <;> simp [regionBlocks, h]

theorem keys_dset_keys {α : Type} (m m2 : List (String × α))
    (hk : m.map Prod.fst = m2.map Prod.fst) (k : String) (v : α) (v2 : α) :
    (dset m k v).map Prod.fst = (dset m2 k v2).map Prod.fst := by
  by_cases hm : k ∈ m.map Prod.fst
  · rw [keys_dset_mem _ _ _ hm, keys_dset_mem _ _ _ (hk ▸ hm), hk]
  · rw [keys_dset_not_mem _ _ _ hm, keys_dset_not_mem _ _ _ (hk ▸ hm), hk]

theorem foldl_filterstep_keys (FA FB : String → NameEntry)
    (cA cB rA rB : String → Bool) (hc : ∀ k, cA k = cB k)
    (hr : ∀ k, rA k = rB k) :
    ∀ (K : List String) (acc acc2 : List (String × NameEntry)),
      acc.map Prod.fst = acc2.map Prod.fst →
      ((K.foldl (fun filtered k => if cA k then filtered
          else if rA k then filtered else dset filtered k (FA k))
            acc)).map Prod.fst
        = ((K.foldl (fun filtered k => if cB k then filtered
            else if rB k then filtered else dset filtered k (FB k))
              acc2)).map Prod.fst := by
  intro K
  induction K with
  | nil =>
    intro acc acc2 h
    exact h
  | cons a t ih =>
    intro acc acc2 h
    simp only [List.foldl_cons]
    apply ih
    rw [hc a, hr a]
    by_cases h1 : cB a = true
    · simp [h1, h]
    · by_cases h2 : rB a = true
      · simp [h1, h2, h]
      · simpa [h1, h2] using keys_dset_keys acc acc2 h a (FA a) (FB a)

/-- Claim C3 (code evaluation): the metadata filter has only the century and
region constraints; its result is invariant under arbitrary rewriting of
every record's "subregion" field, so no call restricts by subregion.  (The
route `main.filter_by_metadata` passes a fourth, subregion, argument to it,
which raises TypeError at runtime.) -/
theorem c3_filter_ignores_subregion (data : NameDict) (century : Option Int)
    (region : Option String) (f : String → Option (List String)) :
    (filter_nicknames_by_metadata (mapSub data f) century region).map
        Prod.fst
      = (filter_nicknames_by_metadata data century region).map Prod.fst := by
  have eA : filter_nicknames_by_metadata (mapSub data f) century region
      = ((mapSub data f).map Prod.fst).foldl
          (fun a k =>
            if centuryBlocks century (get_entry k (mapSub data f)) then a
            else if regionBlocks region (get_entry k (mapSub data f)) then a
            else dset a k (get_entry k (mapSub data f))) [] :=
    foldl_keydep
      (fun a k =>
        if centuryBlocks century (get_entry k (mapSub data f)) then a
        else if regionBlocks region (get_entry k (mapSub data f)) then a
        else dset a k (get_entry k (mapSub data f))) [] (mapSub data f)
  have eB : filter_nicknames_by_metadata data century region
      = (data.map Prod.fst).foldl
          (fun a k =>
            if centuryBlocks century (get_entry k data) then a
            else if regionBlocks region (get_entry k data) then a
            else dset a k (get_entry k data)) [] :=
    foldl_keydep
      (fun a k =>
        if centuryBlocks century (get_entry k data) then a
        else if regionBlocks region (get_entry k data) then a
        else dset a k (get_entry k data)) [] data
  rw [eA, eB, keys_mapSub]
  exact foldl_filterstep_keys
    (fun k => get_entry k (mapSub data f)) (fun k => get_entry k data)
    (fun k => centuryBlocks century (get_entry k (mapSub data f)))
    (fun k => centuryBlocks century (get_entry k data))
    (fun k => regionBlocks region (get_entry k (mapSub data f)))
    (fun k => regionBlocks region (get_entry k data))
    (fun k => centuryBlocks_congr century _ _
      (get_entry_mapSub_fields data f k).1)
    (fun k => regionBlocks_congr region _ _
      (get_entry_mapSub_fields data f k).2)
    (data.map Prod.fst) [] [] rfl

theorem fold_dset_keys_lookup (v : String → NameEntry) :
    ∀ (K : List String) (acc : List (String × NameEntry)),
      K.Nodup → (∀ k ∈ K, k ∉ acc.map Prod.fst) →
      ((K.foldl (fun a k => dset a k (v k)) acc).map Prod.fst
          = acc.map Prod.fst ++ K) ∧
        ∀ k, (k ∈ K → dget (K.foldl (fun a k => dset a k (v k)) acc) k
            = some (v k)) ∧
          (k ∉ K → dget (K.foldl (fun a k => dset a k (v k)) acc) k
            = dget acc k) := by
  intro K
  induction K with
  | nil =>
    intro acc _ _
    exact ⟨by simp, fun k =>
      ⟨fun h => absurd h (List.not_mem_nil k), fun _ => rfl⟩⟩
  | cons a t ih =>
    intro acc hnd hdisj
    simp only [List.foldl_cons]
    have hna : a ∉ acc.map Prod.fst := hdisj a (List.mem_cons_self a t)
    have hat : a ∉ t := (List.nodup_cons.mp hnd).1
    have hdisj2 : ∀ k ∈ t, k ∉ (dset acc a (v a)).map Prod.fst := by
      intro k hk
      rw [keys_dset_not_mem _ _ _ hna]
      simp only [List.mem_append, List.mem_singleton]
      push_neg
      exact ⟨hdisj k (List.mem_cons_of_mem _ hk), fun he => hat (he ▸ hk)⟩
    obtain ⟨hkeys, hrest⟩ :=
      ih (dset acc a (v a)) (List.nodup_cons.mp hnd).2 hdisj2
    refine ⟨?_, ?_⟩
    · rw [hkeys, keys_dset_not_mem _ _ _ hna]
      simp
    · intro k
      constructor
      · intro hk
        rcases List.mem_cons.mp hk with he | ht
        · subst he
          rw [(hrest k).2 hat]
          exact dget_dset_self _ _ _
        · exact (hrest k).1 ht
      · intro hk
        have hka : k ≠ a := fun he => hk (he ▸ List.mem_cons_self a t)
        have hkt : k ∉ t := fun ht => hk (List.mem_cons_of_mem _ ht)
        rw [(hrest k).2 hkt, dget_dset_ne _ _ _ _ hka]

/-- Claim C8: with every constraint absent the metadata filter preserves the
key list exactly and maps each key to the normalized content of the input's
record for that key (a legacy bare list and its normalization carry the same
content). -/
theorem c8_filter_no_constraints_identity (data : NameDict)
    (hnd : (data.map Prod.fst).Nodup) :
    (filter_nicknames_by_metadata data none none).map Prod.fst
        = data.map Prod.fst ∧
      ∀ k r, (k, r) ∈ data →
        dget (filter_nicknames_by_metadata data none none) k
          = some (entryOfRecord r) := by
  have e1 : filter_nicknames_by_metadata data none none
      = (data.map Prod.fst).foldl
          (fun a k => dset a k (get_entry k data)) [] :=
    foldl_keydep (fun a k => dset a k (get_entry k data)) [] data
  obtain ⟨hkeys, hrest⟩ := fold_dset_keys_lookup (fun k => get_entry k data)
    (data.map Prod.fst) [] hnd (by simp)
  constructor
  · rw [e1]
    simpa using hkeys
  · intro k r hm
    have hk : k ∈ data.map Prod.fst := List.mem_map.mpr ⟨(k, r), hm, rfl⟩
    have hdg : dget data k = some r := dget_of_mem hnd hm
    rw [e1, (hrest k).1 hk]
    simp [get_entry, hdg]

/-- Witness for C8: on the mixed-shape dictionary the filter keeps both keys
and the legacy record "Ann" comes back with its normalized content. -/
theorem c8_filter_no_constraints_identity_witness :
    (filter_nicknames_by_metadata mixedDict none none).map Prod.fst
        = mixedDict.map Prod.fst ∧
      dget (filter_nicknames_by_metadata mixedDict none none) "Ann"
        = some (entryOfRecord (NickRecord.legacy ["Annie"])) :=
  ⟨(c8_filter_no_constraints_identity mixedDict (by decide)).1,
    (c8_filter_no_constraints_identity mixedDict (by decide)).2 "Ann"
      (NickRecord.legacy ["Annie"]) (by decide)⟩

/-- Claim C9: Python truthiness makes a century constraint of 0 and an empty
region string impose no restriction: every key of the input survives. -/
theorem c9_falsy_constraints_impose_nothing (data : NameDict)
    (hnd : (data.map Prod.fst).Nodup) :
    (filter_nicknames_by_metadata data (some 0) none).map Prod.fst
        = data.map Prod.fst ∧
      (filter_nicknames_by_metadata data none (some "")).map Prod.fst
        = data.map Prod.fst := by
  have e0 : filter_nicknames_by_metadata data (some 0) none
      = (data.map Prod.fst).foldl
          (fun a k => dset a k (get_entry k data)) [] :=
    foldl_keydep (fun a k => dset a k (get_entry k data)) [] data
  have ee : filter_nicknames_by_metadata data none (some "")
      = (data.map Prod.fst).foldl
          (fun a k => dset a k (get_entry k data)) [] :=
    foldl_keydep (fun a k => dset a k (get_entry k data)) [] data
  obtain ⟨hkeys, _⟩ := fold_dset_keys_lookup (fun k => get_entry k data)
    (data.map Prod.fst) [] hnd (by simp)
  constructor
  · rw [e0]
    simpa using hkeys
  · rw [ee]
    simpa using hkeys

/-- Witness for C9: `williamDict`'s century set is [20], which does not
contain 0, yet the 0-century filter keeps the entry; likewise the empty
region string. -/
theorem c9_falsy_constraints_impose_nothing_witness :
    (filter_nicknames_by_metadata williamDict (some 0) none).map Prod.fst
        = williamDict.map Prod.fst ∧
      (filter_nicknames_by_metadata williamDict none (some "")).map Prod.fst
        = williamDict.map Prod.fst :=
  c9_falsy_constraints_impose_nothing williamDict (by decide)
